import Mathlib

/-!
Verification development for the `my-apis` repository: a shallow embedding of
`csf_extractor.py`, `mb_connection.py`, `sf_connection.py` and `ichigo_api.py`
with proofs about the extraction pipeline, the label normalizer, the cursor
pagination loop and the CRM batch operations.

Python strings are modelled as `List Char`.  The Unicode operations used by the
source (`str.lower`, `unicodedata.normalize('NFKD', ·)` plus
`unicodedata.combining`) are modelled by explicit character tables covering the
Latin repertoire the program processes (ASCII plus the Spanish accented
letters); characters outside the tables behave as in Python: they lowercase to
themselves and are NFKD-fixed non-combining characters.
-/

namespace MyApis

/-- Python `\s` / `str.strip` whitespace characters (ASCII repertoire). -/
def pyWhitespace : List Char := [' ', '\t', '\n', '\x0b', '\x0c', '\r']

/-- `c` is whitespace for Python's `re` and `str.strip`. -/
def isPySpace (c : Char) : Bool := pyWhitespace.contains c

/-- Lowercasing table for `str.lower`: ASCII letters plus the accented
capitals appearing in the CSF pages. -/
def lowerTable : List (Char × Char) :=
  [('A','a'), ('B','b'), ('C','c'), ('D','d'), ('E','e'), ('F','f'), ('G','g'),
   ('H','h'), ('I','i'), ('J','j'), ('K','k'), ('L','l'), ('M','m'), ('N','n'),
   ('O','o'), ('P','p'), ('Q','q'), ('R','r'), ('S','s'), ('T','t'), ('U','u'),
   ('V','v'), ('W','w'), ('X','x'), ('Y','y'), ('Z','z'),
   ('Á','á'), ('É','é'), ('Í','í'), ('Ó','ó'), ('Ú','ú'), ('Ñ','ñ'), ('Ü','ü')]

/-- `str.lower`, character by character. -/
def pyToLower (c : Char) : Char := (lowerTable.lookup c).getD c

/-- The combining diacritical marks produced by NFKD on the modelled
repertoire: combining acute (U+0301), tilde (U+0303), diaeresis (U+0308). -/
def combiningMarks : List Char := ['́', '̃', '̈']

/-- `unicodedata.combining(c) != 0` on the modelled repertoire. -/
def isCombining (c : Char) : Bool := combiningMarks.contains c

/-- NFKD decompositions of the composed characters in the modelled
repertoire (`unicodedata.normalize('NFKD', ·)`). -/
def nfkdTable : List (Char × List Char) :=
  [('á', ['a', '́']), ('é', ['e', '́']), ('í', ['i', '́']),
   ('ó', ['o', '́']), ('ú', ['u', '́']), ('ñ', ['n', '̃']),
   ('ü', ['u', '̈']),
   ('Á', ['A', '́']), ('É', ['E', '́']), ('Í', ['I', '́']),
   ('Ó', ['O', '́']), ('Ú', ['U', '́']), ('Ñ', ['N', '̃']),
   ('Ü', ['U', '̈'])]

/-- NFKD of a single character. -/
def nfkd (c : Char) : List Char := (nfkdTable.lookup c).getD [c]

/-- `InformationExtractor.__eliminar_acentos`: NFKD-decompose, then drop the
combining diacritical marks. -/
def eliminarAcentos (s : List Char) : List Char :=
  (s.flatMap nfkd).filter (fun c => !isCombining c)

/-- `str.strip` from the left. -/
def lstrip (s : List Char) : List Char := s.dropWhile isPySpace

/-- `str.strip` from the right. -/
def rstrip (s : List Char) : List Char := (s.reverse.dropWhile isPySpace).reverse

/-- Python `str.strip()`. -/
def pyStrip (s : List Char) : List Char := rstrip (lstrip s)

/-- `re.sub(r'\s+', ' ', ·)`: replace every maximal whitespace run by one
space (the run is contracted onto its last character). -/
def collapseSpaces : List Char → List Char
  | [] => []
  | [c] => [if isPySpace c then ' ' else c]
  | c :: d :: cs =>
    if isPySpace c then
      if isPySpace d then collapseSpaces (d :: cs)
      else ' ' :: collapseSpaces (d :: cs)
    else c :: collapseSpaces (d :: cs)

/-- `re.sub(r'_+', '_', ·)`: replace every maximal underscore run by one
underscore. -/
def collapseUnderscores : List Char → List Char
  | [] => []
  | [c] => [c]
  | c :: d :: cs =>
    if c = '_' ∧ d = '_' then collapseUnderscores (d :: cs)
    else c :: collapseUnderscores (d :: cs)

/-- `InformationExtractor.__clean_string`, step for step:
newline→space, underscore→space, strip, lower, accent removal, removal of
parens, hyphen→space, removal of colons, whitespace-run collapse,
underscore-run collapse, space→underscore. -/
def cleanString (s : List Char) : List Char :=
  let t1 := s.map (fun c => if c = '\n' then ' ' else c)
  let t2 := t1.map (fun c => if c = '_' then ' ' else c)
  let t3 := pyStrip t2
  let t4 := t3.map pyToLower
  let t5 := eliminarAcentos t4
  let t6 := ((t5.filter (fun c => c != '(')).filter (fun c => c != ')')).map
    (fun c => if c = '-' then ' ' else c)
  let t7 := t6.filter (fun c => c != ':')
  let t8 := collapseSpaces t7
  let t9 := collapseUnderscores t8
  t9.map (fun c => if c = ' ' then '_' else c)

/-- Removal of leading and trailing underscores: the normal form that a
second normalization pass reaches (underscores at the boundary came from
boundary hyphens or colon-and-paren removals and are trimmed, as spaces, by
the `strip` of the next pass). -/
def trimUnd (x : List Char) : List Char :=
  ((x.dropWhile (fun c => c == '_')).reverse.dropWhile (fun c => c == '_')).reverse

/-- A character that one normalization pass can emit besides the underscore:
no whitespace, none of the removed or replaced punctuation, fixed under
lowercasing and NFKD, not a combining mark. -/
def isGoodChar (c : Char) : Bool :=
  !isPySpace c && c != '_' && c != '(' && c != ')' && c != '-' && c != ':'
    && (pyToLower c == c) && (nfkd c == [c]) && !isCombining c

/-- Shape of every `__clean_string` output: each character is an underscore
or a good character, and no two underscores are adjacent. -/
def CleanOutput (x : List Char) : Prop :=
  (∀ c ∈ x, c = '_' ∨ isGoodChar c = true)
  ∧ List.Chain' (fun a b => ¬(a = '_' ∧ b = '_')) x

/-! ### `InformationExtractor.__extract_information`: the table walk -/

/-- One `td` cell of the selected table rows: either it contains a nested
`span` element (whose text is recorded) or it does not (a plain value cell,
whose full text is recorded). -/
inductive Cell where
  | labelCell (text : List Char)
  | valueCell (text : List Char)
deriving DecidableEq

/-- Runtime failures of `__extract_information`: reading `previous_span`
before it was assigned (Python `UnboundLocalError`, a `NameError`), and the
`[1]` index on the result of splitting the `li` text. -/
inductive WalkError where
  | nameError
  | indexError
deriving DecidableEq

/-- The extractor's output dictionary: insertion-ordered keys mapping to a
string or to the explicit absent marker `None` (here `Option`'s `none`). -/
def Dict : Type := List (List Char × Option (List Char))

/-- Python `values[k] = v`: replace the value at an existing key in place,
otherwise append the new key at the end. -/
def dictUpdate : Dict → List Char → Option (List Char) → Dict
  | [], k, v => [(k, v)]
  | (k', v') :: rest, k, v =>
    if k' = k then (k, v) :: rest else (k', v') :: dictUpdate rest k v

/-- The keys of a `Dict`, in insertion order. -/
def dictKeys (m : Dict) : List (List Char) := m.map Prod.fst

/-- Python `values.get(k)`. -/
def dictGet (m : Dict) (k : List Char) : Option (Option (List Char)) :=
  List.lookup k m

/-- The sentinel label text `'AL:'` compared against the raw span text. -/
def alSentinel : List Char := "AL:".toList

/-- The loop of `__extract_information` over the cells `tds` (already past the
skipped leading cell), carrying `previous_span` (`none` while unassigned),
the `next_break` flag, and the dictionary built so far:
a cell with a span sets `next_break` when the raw span text is `'AL:'` and
updates `previous_span` with the normalized span text; a cell without a span
stores its stripped text (or the absent marker `None` when it strips to
empty) under `previous_span`, skipping the store when the label normalized to
the empty string, and breaks out of the loop after a store once `next_break`
is set.  Reading `previous_span` before any label cell is a `NameError`. -/
def tableWalk : List Cell → Option (List Char) → Bool → Dict → Except WalkError Dict
  | [], _, _, values => .ok values
  | .labelCell t :: tds, _, nextBreak, values =>
    tableWalk tds (some (cleanString t)) (nextBreak || t == alSentinel) values
  | .valueCell t :: tds, prev, nextBreak, values =>
    match prev with
    | none => .error .nameError
    | some p =>
      let value := if pyStrip t = [] then none else some (pyStrip t)
      if p = [] then tableWalk tds (some p) nextBreak values
      else
        let values' := dictUpdate values p value
        if nextBreak then .ok values' else tableWalk tds (some p) nextBreak values'

/-- Python `str.split(sep)` for a one-character separator: all segments,
empty segments kept. -/
def pySplit (sep : Char) : List Char → List (List Char)
  | [] => [[]]
  | c :: cs =>
    let r := pySplit sep cs
    if c = sep then [] :: r
    else
      match r with
      | [] => [[c]]
      | h :: t => (c :: h) :: t

/-- The parsed page handed to `__extract_information`: the text of the first
`li` element and the `td` cells selected by `tr[class='ui-widget-content'] td`. -/
structure HtmlPage where
  liText : List Char
  tableCells : List Cell

/-- `InformationExtractor.__extract_information`: the `rfc` key from the `li`
text (`split(':')[1].split(',')[0].strip()`), then the table walk over the
cells with the leading cell skipped. -/
def extractInformation (page : HtmlPage) : Except WalkError Dict :=
  match (pySplit ':' page.liText).drop 1 with
  | [] => .error .indexError
  | seg :: _ =>
    let rfc := pyStrip ((pySplit ',' seg).headD [])
    tableWalk (page.tableCells.drop 1) none false [("rfc".toList, some rfc)]

/-! ### `InformationExtractor.__get_url_from_csf` (QR decode step) -/

/-- One detected code as returned by `pyzbar.decode`: its raw payload bytes. -/
structure QrCode where
  data : List Nat

/-- Failures of the QR step: `decode(image)[0]` on an empty detection list,
and `bytes.decode('ascii')` on a non-ASCII byte. -/
inductive QrError where
  | indexOutOfRange
  | unicodeDecodeError
deriving DecidableEq

/-- `bytes.decode('ascii')`: succeeds exactly when every byte is below 128. -/
def asciiDecode (bytes : List Nat) : Option (List Char) :=
  if bytes.all (· < 128) then some (bytes.map Char.ofNat) else none

/-- `InformationExtractor.__get_url_from_csf`:
`decode(image)[0].data.decode('ascii')`, over the abstract detection list
produced by the scanner. -/
def getUrlFromCsf (detections : List QrCode) : Except QrError (List Char) :=
  match detections with
  | [] => .error .indexOutOfRange
  | d :: _ =>
    match asciiDecode d.data with
    | some s => .ok s
    | none => .error .unicodeDecodeError

/-! ### `InformationExtractor.__convert_pdf_to_image` -/

/-- Python `str.endswith`. -/
def pyEndsWith (s suffix : List Char) : Bool := suffix.isSuffixOf s

/-- Failures of the conversion step: the explicit `raise` when the name does
not end in `pdf` (the source raises a bare string, which aborts the call),
and the `[0]` index when the renderer produces no pages. -/
inductive PdfError where
  | unsupportedFormat
  | indexError
deriving DecidableEq

/-- A Streamlit `UploadedFile`: its `name` and the bytes of `getvalue()`. -/
structure UploadedFileM (β : Type) where
  name : List Char
  value : β

/-- `InformationExtractor.__convert_pdf_to_image` over an abstract renderer
`convertFromBytes` (the external `pdf2image.convert_from_bytes`, taking the
bytes and the dpi): reject names not ending in `pdf`, then take page `[0]`
of the 300-dpi rendering. -/
def convertPdfToImage {β γ : Type} (convertFromBytes : β → Nat → List γ)
    (pdf : UploadedFileM β) : Except PdfError γ :=
  if !pyEndsWith pdf.name "pdf".toList then .error .unsupportedFormat
  else
    match convertFromBytes pdf.value 300 with
    | [] => .error .indexError
    | p :: _ => .ok p

/-- The claim's reading of "filename extension": the segment after the last
dot of the name (empty when there is no dot). -/
def filenameExtension (name : List Char) : List Char :=
  (pySplit '.' name).getLastD []

/-! ### `sf_connection.py`: batch mutation semantics -/

/-- Outcome of one `update_record` call, as discriminated by the `except`
clauses of `SalesforceFunctions.change_values`: success, or one of the two
caught exceptions.  Any other exception aborts the whole call and is outside
this model. -/
inductive UpdateOutcome where
  | ok
  | malformedRequest
  | resourceNotFound
deriving DecidableEq

/-- `SalesforceFunctions.change_values` over an abstract per-row outcome
`updateRecord`: try every row in order, appending to the error list the rows
whose update raised one of the two caught exceptions, and continue. -/
def changeValues {ρ : Type} (updateRecord : ρ → UpdateOutcome) : List ρ → List ρ
  | [] => []
  | row :: rows =>
    match updateRecord row with
    | .ok => changeValues updateRecord rows
    | .malformedRequest => row :: changeValues updateRecord rows
    | .resourceNotFound => row :: changeValues updateRecord rows

/-- The `OrderedDict` shape returned by `SFType.create` and by the handler in
`SalesforceConnection.add_record`: an error-message list, an optional id,
and a success flag. -/
structure SfCreateResult where
  errors : List (List Char)
  id : Option (List Char)
  success : Bool
deriving DecidableEq

/-- `SalesforceConnection.add_record` over an abstract `create` effect
(`SFType.create`, either a response or a `SalesforceMalformedRequest` whose
first error message is carried): without `handle_exception` the effect's
outcome is returned as is (an exception propagates); with it, a malformed
request becomes the structured result `{errors:[msg], id:None, success:False}`. -/
def addRecord {δ : Type} (create : δ → Except (List Char) SfCreateResult)
    (data : δ) (handleException : Bool) : Except (List Char) SfCreateResult :=
  if !handleException then create data
  else
    match create data with
    | .ok r => .ok r
    | .error msg => .ok ⟨[msg], none, false⟩

/-! ### `ichigo_api.py`: `Ichigo.__init__` -/

/-- `Ichigo.__init__` raises `ValueError` outside its accepted options. -/
inductive IchigoError where
  | valueError
deriving DecidableEq

/-- The literal `valid_connect_to_options` set of `Ichigo.__init__`.  (The
docstring instead advertises `{'production','uat}`.) -/
def validConnectToOptions : List String := ["ichigo", "uat"]

/-- `Ichigo.__init__`: reject a `connect_to` outside the valid options with a
`ValueError`, otherwise build the GraphQL endpoint from the template
`https://api.{connect_to}.prima.ai/graphql/`. -/
def ichigoInit (connectTo : String) : Except IchigoError String :=
  if !(validConnectToOptions.contains connectTo) then .error .valueError
  else .ok ("https://api." ++ connectTo ++ ".prima.ai/graphql/")

/-! ### `mb_connection.py`: cursor pagination

`MetabaseConnection.query_data` posts the query to `/api/dataset`, whose
response Metabase truncates at 2000 rows.  The remote database is modelled as
the list of row ids `db`; executing the query with the `where {id_col} >
'{max_value}'` and `order by {id_col}` clauses substituted yields the matching
ids in ascending order, truncated to the 2000-row page. -/

/-- One page as fetched by `query_data` for the cursor-rewritten query. -/
def queryData (db : List Int) (maxValue : Int) : List Int :=
  ((db.filter (fun x => maxValue < x)).insertionSort (· ≤ ·)).take 2000

/-- The `while 1` loop of `MetabaseConnection.query_more_data`: fetch a page
for the current cursor, record it, stop when the page is short of 2000 rows,
otherwise continue with the cursor moved to `data[id_col_df].max()`.  The
fuel only bounds the iteration count; `query_more_data` supplies enough
(each further iteration consumes 2000 distinct ids of `db`). -/
def queryMoreLoop (db : List Int) : Nat → Int → List Int
  | 0, _ => []
  | fuel + 1, maxValue =>
    let data := queryData db maxValue
    if data.length < 2000 then data
    else data ++ queryMoreLoop db fuel (data.foldl max maxValue)

/-- `MetabaseConnection.query_more_data`: run the pagination loop from the
supplied minimum cursor value and return the concatenation of the pages. -/
def queryMoreData (db : List Int) (minValue : Int) : List Int :=
  queryMoreLoop db (db.length + 1) minValue

/-! ## Theorems -/

/-- C1: on the cell sequence `[label "RFC:", value "", label "Nombre",
value "ACME SA", label "AL:", value "2030-01-01"]` (after the skipped leading
cell) the table walk yields exactly `rfc ↦ None` (the absent marker, not the
empty string), `nombre ↦ "ACME SA"`, `al ↦ "2030-01-01"`, and it halts right
after storing the value following the sentinel label `AL:`: whatever cells
follow contribute nothing. -/
theorem c1_table_walk_early_termination (rest : List Cell) :
    tableWalk ([.labelCell "RFC:".toList, .valueCell "".toList,
                .labelCell "Nombre".toList, .valueCell "ACME SA".toList,
                .labelCell "AL:".toList, .valueCell "2030-01-01".toList] ++ rest)
      none false []
      = .ok [("rfc".toList, none), ("nombre".toList, some "ACME SA".toList),
             ("al".toList, some "2030-01-01".toList)] := by
  rfl

/-- Python `values[k] = v` leaves the lookup of every key of the dictionary
other than `k` unchanged, and `values.get` finds `v` at `k` afterwards:
the helper for the last-write-wins property. -/
theorem dictGet_dictUpdate_self (m : Dict) (k : List Char) (v : Option (List Char)) :
    dictGet (dictUpdate m k v) k = some v := by
  induction m with
  | nil => simp [dictUpdate, dictGet, List.lookup]
  | cons p rest ih =>
    obtain ⟨k', v'⟩ := p
    by_cases h : k' = k
    · simp [dictUpdate, h, dictGet, List.lookup]
    · have hne : (k == k') = false := beq_eq_false_iff_ne.mpr (fun hh => h hh.symm)
      simp only [dictUpdate, if_neg h, dictGet, List.lookup, hne]
      exact ih

/-- Python `values[k] = v` keeps the key list unchanged when `k` is present
and appends `k` otherwise. -/
theorem dictKeys_dictUpdate (m : Dict) (k : List Char) (v : Option (List Char)) :
    dictKeys (dictUpdate m k v) =
      if k ∈ dictKeys m then dictKeys m else dictKeys m ++ [k] := by
  induction m with
  | nil => simp [dictUpdate, dictKeys]
  | cons p rest ih =>
    obtain ⟨k', v'⟩ := p
    by_cases h : k' = k
    · simp [dictUpdate, h, dictKeys]
    · simp only [dictUpdate, if_neg h, dictKeys, List.map_cons]
      simp only [dictKeys] at ih
      rw [ih]
      by_cases hk : k ∈ rest.map Prod.fst
      · simp [hk, Ne.symm h]
      · simp [hk, Ne.symm h]

/-- Python dictionary stores keep the key list duplicate-free. -/
theorem dictKeys_nodup_dictUpdate (m : Dict) (k : List Char) (v : Option (List Char))
    (h : (dictKeys m).Nodup) : (dictKeys (dictUpdate m k v)).Nodup := by
  rw [dictKeys_dictUpdate]
  by_cases hk : k ∈ dictKeys m
  · simpa [hk]
  · simpa [hk, List.nodup_append] using h

/-- The table walk preserves duplicate-freeness of the record's key list. -/
theorem tableWalk_keys_nodup :
    ∀ (cells : List Cell) (prev : Option (List Char)) (b : Bool) (m : Dict) (d : Dict),
      tableWalk cells prev b m = .ok d → (dictKeys m).Nodup → (dictKeys d).Nodup := by
  intro cells
  induction cells with
  | nil => intro prev b m d h hm; simp [tableWalk] at h; simpa [← h] using hm
  | cons c rest ih =>
    intro prev b m d h hm
    match c with
    | .labelCell t =>
      simp only [tableWalk] at h
      exact ih _ _ _ _ h hm
    | .valueCell t =>
      simp only [tableWalk] at h
      match prev with
      | none => simp at h
      | some p =>
        simp only at h
        by_cases hp : p = []
        · rw [if_pos hp] at h
          exact ih _ _ _ _ h hm
        · rw [if_neg hp] at h
          by_cases hb : b = true
          · rw [if_pos hb] at h
            simp at h
            rw [← h]
            exact dictKeys_nodup_dictUpdate _ _ _ hm
          · rw [if_neg hb] at h
            exact ih _ _ _ _ h (dictKeys_nodup_dictUpdate _ _ _ hm)

/-- C3: every record produced by the table walk from a duplicate-free record
has duplicate-free keys; re-storing a key overwrites its value in place
(last write wins); and on the duplicate-label sequence `[label "Estado",
value "CDMX", label "Estado", value "JALISCO"]` the walk yields the single
entry `estado ↦ "JALISCO"`. -/
theorem c3_unique_keys_last_write_wins :
    (∀ (cells : List Cell) (prev : Option (List Char)) (b : Bool) (m d : Dict),
       tableWalk cells prev b m = .ok d → (dictKeys m).Nodup → (dictKeys d).Nodup)
    ∧ (∀ (m : Dict) (k : List Char) (v : Option (List Char)),
       dictGet (dictUpdate m k v) k = some v)
    ∧ tableWalk [.labelCell "Estado".toList, .valueCell "CDMX".toList,
                 .labelCell "Estado".toList, .valueCell "JALISCO".toList]
        none false []
        = .ok [("estado".toList, some "JALISCO".toList)] :=
  ⟨tableWalk_keys_nodup, dictGet_dictUpdate_self, rfl⟩

/-- C3 witness: the walk on the concrete duplicate-label sequence returns the
record above, whose key list is duplicate-free. -/
theorem c3_witness :
    (dictKeys [("estado".toList, some "JALISCO".toList)]).Nodup :=
  c3_unique_keys_last_write_wins.1
    [.labelCell "Estado".toList, .valueCell "CDMX".toList,
     .labelCell "Estado".toList, .valueCell "JALISCO".toList]
    none false [] [("estado".toList, some "JALISCO".toList)] rfl (by decide)

/-- C5: the QR-decode step fails with the index-out-of-range condition on an
empty detection list, and on a nonempty one returns the ASCII decoding of the
first detected code's payload. -/
theorem c5_qr_decode_contract :
    (∀ (d : QrCode) (rest : List QrCode) (s : List Char),
       asciiDecode d.data = some s → getUrlFromCsf (d :: rest) = .ok s)
    ∧ getUrlFromCsf [] = .error .indexOutOfRange := by
  constructor
  · intro d rest s h
    simp [getUrlFromCsf, h]
  · rfl

/-- C5 witness: one detected code with payload bytes `"hi"` decodes to `"hi"`. -/
theorem c5_witness :
    getUrlFromCsf [⟨[104, 105]⟩] = .ok "hi".toList :=
  c5_qr_decode_contract.1 ⟨[104, 105]⟩ [] "hi".toList (by decide)

/-- C6: the normalizer sends the label `Régimen Fiscal:` exactly to the key
`regimen_fiscal`: accent stripped, trailing colon removed, lowercased, and
the interior space replaced by an underscore. -/
theorem c6_regimen_fiscal_normalization :
    cleanString "Régimen Fiscal:".toList = "regimen_fiscal".toList := by
  decide

/-- C9: when a value cell (a `td` with no nested `span`) is the first cell
processed after the skipped leading cell, `previous_span` is read before it
was ever assigned, so the extraction fails with the `NameError` and returns
no partial record. -/
theorem c9_value_before_label_name_error (page : HtmlPage) (c0 : Cell)
    (t : List Char) (rest : List Cell) (seg : List Char) (segs : List (List Char))
    (hli : (pySplit ':' page.liText).drop 1 = seg :: segs)
    (hcells : page.tableCells = c0 :: .valueCell t :: rest) :
    extractInformation page = .error .nameError := by
  simp only [extractInformation, hli, hcells, List.drop_succ_cons, List.drop_zero]
  rfl

/-- C9 witness: a page whose first table cell after the skipped one is a
plain value cell makes the extraction fail with the `NameError`. -/
theorem c9_witness :
    extractInformation
      ⟨"RFC: XAXX010101000, NOMBRE".toList,
       [.valueCell "x".toList, .valueCell "y".toList, .valueCell "z".toList]⟩
      = .error .nameError :=
  c9_value_before_label_name_error _ (.valueCell "x".toList) "y".toList
    [.valueCell "z".toList] " XAXX010101000, NOMBRE".toList [] (by decide) rfl

/-- C10: `Ichigo.__init__` accepts exactly the `connect_to` values `ichigo`
and `uat`, building `https://api.{connect_to}.prima.ai/graphql/`; every other
value — including `production`, which the docstring advertises — raises a
`ValueError`. -/
theorem c10_ichigo_connect_to_options :
    ichigoInit "ichigo" = .ok "https://api.ichigo.prima.ai/graphql/"
    ∧ ichigoInit "uat" = .ok "https://api.uat.prima.ai/graphql/"
    ∧ ichigoInit "production" = .error .valueError
    ∧ ∀ s : String, s ≠ "ichigo" → s ≠ "uat" → ichigoInit s = .error .valueError := by
  refine ⟨rfl, rfl, rfl, ?_⟩
  intro s h1 h2
  simp [ichigoInit, validConnectToOptions, List.contains, h1, h2]

/-- C10 witness: the rejection applied at the concrete value `production`. -/
theorem c10_witness : ichigoInit "production" = .error .valueError :=
  c10_ichigo_connect_to_options.2.2.2 "production" (by decide) (by decide)

/-- C8: `change_values` attempts every row in order and returns exactly the
rows whose update raised one of the two caught errors; and `add_record` with
`handle_exception` turns a malformed-request failure of the create call into
the structured result `{errors: [msg], id: None, success: False}` instead of
raising. -/
theorem c8_batch_best_effort {ρ δ : Type} (upd : ρ → UpdateOutcome) (rows : List ρ)
    (create : δ → Except (List Char) SfCreateResult) (data : δ) (msg : List Char) :
    changeValues upd rows = rows.filter (fun r => upd r != UpdateOutcome.ok)
    ∧ (create data = .error msg → addRecord create data true = .ok ⟨[msg], none, false⟩) := by
  constructor
  · induction rows with
    | nil => rfl
    | cons r rs ih =>
      cases h : upd r <;> simp [changeValues, h, List.filter, ih] <;> rfl
  · intro h
    simp [addRecord, h]

/-- C8 witness: a three-row batch whose middle update is malformed returns
exactly that row, and a failing create is converted into the structured
result. -/
theorem c8_witness :
    changeValues (fun n : Nat => if n = 1 then .malformedRequest else .ok) [0, 1, 2] = [1]
    ∧ addRecord (fun _ : Nat => .error "bad".toList) 0 true
        = .ok ⟨["bad".toList], none, false⟩ :=
  ⟨(c8_batch_best_effort (fun n : Nat => if n = 1 then .malformedRequest else .ok)
      [0, 1, 2] (fun _ : Nat => .error "bad".toList) 0 "bad".toList).1.trans (by decide),
   (c8_batch_best_effort (fun n : Nat => if n = 1 then .malformedRequest else .ok)
      [0, 1, 2] (fun _ : Nat => .error "bad".toList) 0 "bad".toList).2 rfl⟩

/-- C7 counterexample: the claim ties the `UnsupportedFormat` failure to the
filename's extension, but the source only checks `pdf.name.endswith('pdf')`:
the name `file.xpdf` has extension `xpdf`, which is no PDF extension, yet the
converter proceeds and returns the rendered first page. -/
theorem c7_counterexample :
    filenameExtension "file.xpdf".toList ≠ "pdf".toList
    ∧ convertPdfToImage (fun (_ : List Nat) (_ : Nat) => [42]) ⟨"file.xpdf".toList, [0]⟩
        = .ok 42 :=
  ⟨by decide, rfl⟩

/-- C7 as amended: the converter fails with the `UnsupportedFormat` condition
exactly when the filename does not end with the letters `pdf` (so names such
as `file.xpdf` are accepted although their extension is not `pdf`), and
otherwise returns the first page of the 300-dpi rendering of the document. -/
theorem c7_endswith_check {β γ : Type} (render : β → Nat → List γ)
    (pdf : UploadedFileM β) :
    (pyEndsWith pdf.name "pdf".toList = false →
       convertPdfToImage render pdf = .error .unsupportedFormat)
    ∧ (∀ (p : γ) (ps : List γ), render pdf.value 300 = p :: ps →
       pyEndsWith pdf.name "pdf".toList = true →
       convertPdfToImage render pdf = .ok p) := by
  constructor
  · intro h
    simp only [convertPdfToImage, h, Bool.not_false, if_pos]
  · intro p ps hr h
    simp only [convertPdfToImage, h, Bool.not_true, Bool.false_eq_true, if_false, hr]

/-- The starting value is a lower bound of a left max-fold. -/
theorem foldl_max_init_le (l : List Int) (a : Int) : a ≤ l.foldl max a := by
  induction l generalizing a with
  | nil => simp
  | cons x xs ih => exact le_trans (le_max_left a x) (ih (max a x))

/-- Every member of the list is bounded by the left max-fold. -/
theorem le_foldl_max_of_mem {l : List Int} {x : Int} (a : Int) (h : x ∈ l) :
    x ≤ l.foldl max a := by
  induction l generalizing a with
  | nil => simp at h
  | cons y ys ih =>
    rcases List.mem_cons.mp h with rfl | hmem
    · exact le_trans (le_max_right a x) (foldl_max_init_le ys (max a x))
    · exact ih (max a y) hmem

/-- The left max-fold is the starting value or a member of the list. -/
theorem foldl_max_mem (l : List Int) (a : Int) : l.foldl max a = a ∨ l.foldl max a ∈ l := by
  induction l generalizing a with
  | nil => left; rfl
  | cons x xs ih =>
    rcases ih (max a x) with h | h
    · rcases max_cases a x with ⟨he, _⟩ | ⟨he, _⟩
      · left; rw [List.foldl_cons, h, he]
      · right; rw [List.foldl_cons, h, he]; exact List.mem_cons_self x xs
    · right; exact List.mem_cons_of_mem x h

/-- One unfolding of the pagination loop. -/
theorem queryMoreLoop_succ (db : List Int) (fuel : Nat) (maxv : Int) :
    queryMoreLoop db (fuel + 1) maxv =
      if (queryData db maxv).length < 2000 then queryData db maxv
      else queryData db maxv ++ queryMoreLoop db fuel ((queryData db maxv).foldl max maxv) := rfl

/-- After a full page, the shifted cursor `data[id_col].max()` strictly
exceeds the old cursor, the rows still to fetch are exactly the part of the
sorted matching rows after the page, and the count of rows still to fetch
drops by the page size. -/
theorem queryMoreLoop_step (db : List Int) (hdb : db.Nodup) (maxv : Int)
    (hfull : ¬ (queryData db maxv).length < 2000) :
    maxv < (queryData db maxv).foldl max maxv
    ∧ (db.filter (fun x => (queryData db maxv).foldl max maxv < x)).insertionSort (· ≤ ·)
        = ((db.filter (fun x => maxv < x)).insertionSort (· ≤ ·)).drop 2000
    ∧ (db.filter (fun x => (queryData db maxv).foldl max maxv < x)).length + 2000
        = (db.filter (fun x => maxv < x)).length := by
  set P := db.filter (fun x => maxv < x) with hP
  set L := P.insertionSort (· ≤ ·) with hL
  have hdata : queryData db maxv = L.take 2000 := rfl
  set data := L.take 2000 with hdataL
  set newmax := data.foldl max maxv with hnm
  have hLP : List.Perm L P := List.perm_insertionSort _ P
  have hsortL : List.Sorted (· ≤ ·) L := List.sorted_insertionSort _ P
  have hnodupL : L.Nodup := hLP.nodup_iff.mpr (hdb.filter _)
  have hsortLT : List.Sorted (· < ·) L := hsortL.lt_of_le hnodupL
  have hlenL : 2000 ≤ L.length := by
    rw [hdata, List.length_take] at hfull
    omega
  have hlen_data : data.length = 2000 := by
    rw [hdataL, List.length_take]
    omega
  have hsplit : data ++ L.drop 2000 = L := List.take_append_drop _ _
  have hmemP : ∀ x ∈ data, maxv < x := by
    intro x hx
    have hxL : x ∈ L := (List.take_sublist _ _).mem hx
    have hxP : x ∈ P := hLP.mem_iff.mp hxL
    rw [hP] at hxP
    simpa using (List.mem_filter.mp hxP).2
  have hne : data ≠ [] := by
    intro h
    rw [h] at hlen_data
    simp at hlen_data
  obtain ⟨x₀, hx₀⟩ := List.exists_mem_of_ne_nil data hne
  have hnewmem : newmax ∈ data := by
    rcases foldl_max_mem data maxv with h | h
    · exfalso
      have hle : x₀ ≤ data.foldl max maxv := le_foldl_max_of_mem maxv hx₀
      rw [h] at hle
      exact absurd hle (not_le.mpr (hmemP x₀ hx₀))
    · exact h
  have hmaxlt : maxv < newmax := hmemP newmax hnewmem
  have hbound : ∀ x ∈ data, x ≤ newmax := fun x hx => le_foldl_max_of_mem maxv hx
  have hgt : ∀ b ∈ L.drop 2000, newmax < b := by
    have hpw : List.Pairwise (· < ·) (data ++ L.drop 2000) := by
      rw [hsplit]; exact hsortLT
    intro b hb
    exact (List.pairwise_append.mp hpw).2.2 newmax hnewmem b hb
  have hfilter_eq : P.filter (fun x => decide (newmax < x))
      = db.filter (fun x => decide (newmax < x)) := by
    rw [hP, List.filter_filter]
    apply List.filter_congr
    intro x _
    by_cases h : newmax < x
    · simp [h, lt_trans hmaxlt h]
    · simp [h]
  have h1 : data.filter (fun x => decide (newmax < x)) = [] := by
    apply List.filter_eq_nil_iff.mpr
    intro a ha
    simp only [decide_eq_true_eq]
    exact not_lt.mpr (hbound a ha)
  have h2 : (L.drop 2000).filter (fun x => decide (newmax < x)) = L.drop 2000 := by
    apply List.filter_eq_self.mpr
    intro a ha
    simp only [decide_eq_true_eq]
    exact hgt a ha
  have hfilterL : L.filter (fun x => decide (newmax < x)) = L.drop 2000 := by
    conv_lhs => rw [← hsplit]
    rw [List.filter_append, h1, h2, List.nil_append]
  have hperm : List.Perm (db.filter (fun x => decide (newmax < x))) (L.drop 2000) := by
    rw [← hfilter_eq, ← hfilterL]
    exact (hLP.filter _).symm
  have hsort_drop : List.Sorted (· ≤ ·) (L.drop 2000) :=
    List.Pairwise.sublist (List.drop_sublist _ _) hsortL
  have hsort_eq : (db.filter (fun x => decide (newmax < x))).insertionSort (· ≤ ·)
      = L.drop 2000 :=
    List.eq_of_perm_of_sorted
      ((List.perm_insertionSort _ _).trans hperm)
      (List.sorted_insertionSort _ _) hsort_drop
  have hlen_eq : (db.filter (fun x => decide (newmax < x))).length + 2000 = P.length := by
    have hL_len : L.length = P.length := List.length_insertionSort _ P
    have := hperm.length_eq
    rw [List.length_drop] at this
    omega
  exact ⟨hmaxlt, hsort_eq, hlen_eq⟩

/-- With enough fuel (each full page consumes 2000 matching rows) the
pagination loop returns exactly the matching rows in ascending id order. -/
theorem queryMoreLoop_complete (db : List Int) (hdb : db.Nodup) :
    ∀ (fuel : Nat) (maxv : Int),
      (db.filter (fun x => maxv < x)).length ≤ 2000 * fuel →
      queryMoreLoop db (fuel + 1) maxv
        = (db.filter (fun x => maxv < x)).insertionSort (· ≤ ·) := by
  intro fuel
  induction fuel with
  | zero =>
    intro maxv hlen
    have hnil : db.filter (fun x => decide (maxv < x)) = [] := by
      apply List.length_eq_zero.mp
      omega
    rw [queryMoreLoop_succ]
    simp [queryData, hnil, queryMoreLoop]
  | succ fuel ih =>
    intro maxv hlen
    by_cases hshort : (queryData db maxv).length < 2000
    · rw [queryMoreLoop_succ, if_pos hshort]
      have hlenL : ((db.filter (fun x => maxv < x)).insertionSort (· ≤ ·)).length ≤ 2000 := by
        have h := hshort
        rw [show queryData db maxv
            = ((db.filter (fun x => maxv < x)).insertionSort (· ≤ ·)).take 2000 from rfl,
          List.length_take] at h
        omega
      rw [show queryData db maxv
          = ((db.filter (fun x => maxv < x)).insertionSort (· ≤ ·)).take 2000 from rfl]
      exact List.take_of_length_le hlenL
    · obtain ⟨hmaxlt, hsorteq, hlen_eq⟩ := queryMoreLoop_step db hdb maxv hshort
      rw [queryMoreLoop_succ, if_neg hshort]
      have hlen' : (db.filter
          (fun x => (queryData db maxv).foldl max maxv < x)).length ≤ 2000 * fuel := by
        omega
      rw [ih _ hlen', hsorteq]
      exact List.take_append_drop _ _

/-- C4: over a store of distinct row ids, `query_more_data` returns exactly
the rows matching the cursor filter in ascending cursor order — the
concatenation of the fetched pages — so the result is strictly sorted,
contains no duplicate rows, and contains no row whose id is below the
supplied minimum cursor value. -/
theorem c4_query_more_data_pagination (db : List Int) (minValue : Int) (hdb : db.Nodup) :
    queryMoreData db minValue
      = (db.filter (fun x => minValue < x)).insertionSort (· ≤ ·)
    ∧ List.Sorted (· < ·) (queryMoreData db minValue)
    ∧ (queryMoreData db minValue).Nodup
    ∧ ∀ x ∈ queryMoreData db minValue, ¬ x < minValue := by
  have hlen : (db.filter (fun x => minValue < x)).length ≤ 2000 * db.length := by
    have h := List.length_filter_le (fun x => decide (minValue < x)) db
    omega
  have hmain : queryMoreData db minValue
      = (db.filter (fun x => minValue < x)).insertionSort (· ≤ ·) :=
    queryMoreLoop_complete db hdb db.length minValue hlen
  have hnodup : (queryMoreData db minValue).Nodup := by
    rw [hmain]
    exact (List.perm_insertionSort _ _).nodup_iff.mpr (hdb.filter _)
  refine ⟨hmain, ?_, hnodup, ?_⟩
  · rw [hmain]
    rw [hmain] at hnodup
    exact (List.sorted_insertionSort _ _).lt_of_le hnodup
  · intro x hx
    rw [hmain] at hx
    have hxf : x ∈ db.filter (fun x => decide (minValue < x)) :=
      (List.perm_insertionSort _ _).mem_iff.mp hx
    have := (List.mem_filter.mp hxf).2
    simp only [decide_eq_true_eq] at this
    omega

/-- C4 witness: the pagination over the concrete store `[3, 1, 5]` with
minimum cursor 2 returns the sorted matching rows. -/
theorem c4_witness :
    queryMoreData [3, 1, 5] 2
      = (([3, 1, 5] : List Int).filter (fun x => (2 : Int) < x)).insertionSort (· ≤ ·) :=
  (c4_query_more_data_pagination [3, 1, 5] 2 (by decide)).1

/-- C7 witness: a name not ending in `pdf` is rejected; a name ending in
`.pdf` yields the first rendered page. -/
theorem c7_witness :
    convertPdfToImage (fun (_ : List Nat) (_ : Nat) => [7]) ⟨"doc.txt".toList, []⟩
        = .error .unsupportedFormat
    ∧ convertPdfToImage (fun (_ : List Nat) (_ : Nat) => [7]) ⟨"a.pdf".toList, []⟩
        = .ok 7 :=
  ⟨(c7_endswith_check (fun (_ : List Nat) (_ : Nat) => [7]) ⟨"doc.txt".toList, []⟩).1
      (by decide),
   (c7_endswith_check (fun (_ : List Nat) (_ : Nat) => [7]) ⟨"a.pdf".toList, []⟩).2
      7 [] rfl (by decide)⟩

/-- A table lookup hit is a member of the table. -/
theorem lookup_mem {β : Type} {tbl : List (Char × β)} {a : Char} {b : β}
    (h : tbl.lookup a = some b) : (a, b) ∈ tbl := by
  induction tbl with
  | nil => simp [List.lookup] at h
  | cons p rest ih =>
    obtain ⟨k, v⟩ := p
    by_cases hak : a == k
    · simp only [List.lookup, hak] at h
      have hk : a = k := eq_of_beq hak
      cases h
      simp [hk]
    · simp only [List.lookup, Bool.not_eq_true] at h
      rw [Bool.not_eq_true] at hak
      rw [hak] at h
      exact List.mem_cons_of_mem _ (ih h)

/-- A character outside the lowercase table lowercases to itself. -/
theorem pyToLower_default {c : Char} (h : lowerTable.lookup c = none) : pyToLower c = c := by
  simp [pyToLower, h]

/-- A character outside the decomposition table is NFKD-fixed. -/
theorem nfkd_default {c : Char} (h : nfkdTable.lookup c = none) : nfkd c = [c] := by
  simp [nfkd, h]

/-- A non-combining character produced by decomposing a lowercased character
is itself fixed under lowercasing and decomposition. -/
theorem stable_after_accents (b d : Char) (hd : d ∈ nfkd (pyToLower b))
    (hc : isCombining d = false) :
    pyToLower d = d ∧ nfkd d = [d] := by
  cases hlk : lowerTable.lookup b with
  | some b' =>
    have hb' : pyToLower b = b' := by simp [pyToLower, hlk]
    rw [hb'] at hd
    have hmem : (b, b') ∈ lowerTable := lookup_mem hlk
    have hfact : ∀ p ∈ lowerTable, ∀ d ∈ nfkd p.2, isCombining d = false →
        (pyToLower d = d ∧ nfkd d = [d]) := by decide
    exact hfact (b, b') hmem d hd hc
  | none =>
    have hb : pyToLower b = b := pyToLower_default hlk
    rw [hb] at hd
    cases hnf : nfkdTable.lookup b with
    | some l =>
      have hmem : (b, l) ∈ nfkdTable := lookup_mem hnf
      have hdl : d ∈ l := by
        rw [nfkd, hnf] at hd
        exact hd
      have hfact : ∀ p ∈ nfkdTable, lowerTable.lookup p.1 = none → ∀ d ∈ p.2,
          isCombining d = false → (pyToLower d = d ∧ nfkd d = [d]) := by decide
      exact hfact (b, l) hmem hlk d hdl hc
    | none =>
      have hbb : nfkd b = [b] := nfkd_default hnf
      rw [hbb] at hd
      have : d = b := List.mem_singleton.mp hd
      subst this
      exact ⟨pyToLower_default hlk, hbb⟩

/-- Lowercasing never produces an underscore from a non-underscore. -/
theorem pyToLower_ne_underscore {c : Char} (h : c ≠ '_') : pyToLower c ≠ '_' := by
  cases hlk : lowerTable.lookup c with
  | some b =>
    have hmem : (c, b) ∈ lowerTable := lookup_mem hlk
    have hfact : ∀ p ∈ lowerTable, p.2 ≠ '_' := by decide
    have : pyToLower c = b := by simp [pyToLower, hlk]
    rw [this]
    exact hfact (c, b) hmem
  | none => rw [pyToLower_default hlk]; exact h

/-- Decomposition never produces an underscore from a non-underscore. -/
theorem nfkd_ne_underscore {c d : Char} (h : c ≠ '_') (hd : d ∈ nfkd c) : d ≠ '_' := by
  cases hnf : nfkdTable.lookup c with
  | some l =>
    have hmem : (c, l) ∈ nfkdTable := lookup_mem hnf
    have hfact : ∀ p ∈ nfkdTable, ∀ d ∈ p.2, d ≠ '_' := by decide
    refine hfact (c, l) hmem d ?_
    rw [nfkd, hnf] at hd
    exact hd
  | none =>
    rw [nfkd_default hnf] at hd
    rw [List.mem_singleton.mp hd]
    exact h

/-- A character of a whitespace-collapsed list is the single space or a
non-whitespace character of the input. -/
theorem mem_collapseSpaces {c : Char} :
    ∀ {l : List Char}, c ∈ collapseSpaces l → c = ' ' ∨ (c ∈ l ∧ isPySpace c = false) := by
  intro l
  induction l with
  | nil => intro h; simp [collapseSpaces] at h
  | cons a cs ih =>
    intro h
    match cs with
    | [] =>
      simp only [collapseSpaces] at h
      by_cases ha : isPySpace a
      · left; simpa [ha] using h
      · right
        rw [if_neg ha] at h
        simp only [List.mem_singleton] at h
        subst h
        simp [ha]
    | d :: cs' =>
      simp only [collapseSpaces] at h
      by_cases ha : isPySpace a
      · rw [if_pos ha] at h
        by_cases hd : isPySpace d
        · rw [if_pos hd] at h
          rcases ih h with h' | ⟨hm, hs⟩
          · left; exact h'
          · right; exact ⟨List.mem_cons_of_mem _ hm, hs⟩
        · rw [if_neg hd] at h
          rcases List.mem_cons.mp h with h' | h'
          · left; exact h'
          · rcases ih h' with h'' | ⟨hm, hs⟩
            · left; exact h''
            · right; exact ⟨List.mem_cons_of_mem _ hm, hs⟩
      · rw [if_neg ha] at h
        rcases List.mem_cons.mp h with h' | h'
        · subst h'; right; simp [ha]
        · rcases ih h' with h'' | ⟨hm, hs⟩
          · left; exact h''
          · right; exact ⟨List.mem_cons_of_mem _ hm, hs⟩

/-- Collapsing walks past a non-whitespace head. -/
theorem collapseSpaces_cons_of_neg {d : Char} {cs : List Char} (hd : ¬ isPySpace d) :
    collapseSpaces (d :: cs) = d :: collapseSpaces cs := by
  match cs with
  | [] => simp [collapseSpaces, hd]
  | e :: cs' => simp [collapseSpaces, hd]

/-- A whitespace-collapsed list has no two adjacent whitespace characters. -/
theorem chain'_collapseSpaces :
    ∀ (l : List Char),
      List.Chain' (fun a b => ¬(isPySpace a = true ∧ isPySpace b = true)) (collapseSpaces l) := by
  intro l
  induction l with
  | nil => simp [collapseSpaces]
  | cons a cs ih =>
    match cs with
    | [] =>
      by_cases ha : isPySpace a <;> simp [collapseSpaces, ha]
    | d :: cs' =>
      simp only [collapseSpaces]
      by_cases ha : isPySpace a
      · rw [if_pos ha]
        by_cases hd : isPySpace d
        · rw [if_pos hd]; exact ih
        · rw [if_neg hd]
          rw [collapseSpaces_cons_of_neg hd] at ih ⊢
          exact List.Chain'.cons (by simp [hd]) ih
      · rw [if_neg ha]
        match hcs : collapseSpaces (d :: cs') with
        | [] => simp
        | e :: es =>
          rw [hcs] at ih
          refine List.Chain'.cons ?_ ih
          simp [ha]

/-- Whitespace collapsing fixes a list whose whitespace is plain single
spaces with no two adjacent. -/
theorem collapseSpaces_eq_self {l : List Char}
    (hsp : ∀ c ∈ l, isPySpace c = true → c = ' ')
    (hch : List.Chain' (fun a b => ¬(isPySpace a = true ∧ isPySpace b = true)) l) :
    collapseSpaces l = l := by
  induction l with
  | nil => rfl
  | cons a cs ih =>
    match cs with
    | [] =>
      by_cases ha : isPySpace a
      · have : a = ' ' := hsp a (by simp) ha
        simp [collapseSpaces, ha, this]
      · simp [collapseSpaces, ha]
    | d :: cs' =>
      simp only [collapseSpaces]
      by_cases ha : isPySpace a
      · have had : ¬ (isPySpace d = true) := by
          have := List.chain'_cons.mp hch
          intro hd
          exact this.1 ⟨ha, hd⟩
        rw [if_pos ha, if_neg had]
        have ha' : a = ' ' := hsp a (by simp) ha
        rw [ha']
        congr 1
        exact ih (fun c hc hc' => hsp c (List.mem_cons_of_mem _ hc) hc')
          (List.chain'_cons.mp hch).2
      · rw [if_neg ha]
        congr 1
        exact ih (fun c hc hc' => hsp c (List.mem_cons_of_mem _ hc) hc')
          (List.chain'_cons.mp hch).2

/-- Underscore collapsing fixes an underscore-free list. -/
theorem collapseUnderscores_eq_self {l : List Char} (h : '_' ∉ l) :
    collapseUnderscores l = l := by
  induction l with
  | nil => rfl
  | cons a cs ih =>
    match cs with
    | [] => rfl
    | d :: cs' =>
      have ha : a ≠ '_' := fun he => h (he ▸ List.mem_cons_self a _)
      simp only [collapseUnderscores]
      rw [if_neg (fun hc => ha hc.1)]
      congr 1
      exact ih (fun hm => h (List.mem_cons_of_mem _ hm))

/-- Stripping yields a sublist. -/
theorem pyStrip_sublist (l : List Char) : List.Sublist (pyStrip l) l := by
  have h1 : List.Sublist (lstrip l) l := List.dropWhile_sublist _
  have h2 : List.Sublist (rstrip (lstrip l)) (lstrip l) := by
    have := List.dropWhile_sublist (l := (lstrip l).reverse) isPySpace
    have h3 := this.reverse
    rw [List.reverse_reverse] at h3
    exact h3
  exact h2.trans h1

/-- A chain transports along an implication that may use membership. -/
theorem chain'_imp_mem {α : Type} {R S : α → α → Prop} :
    ∀ {l : List α}, List.Chain' R l → (∀ a ∈ l, ∀ b ∈ l, R a b → S a b) →
      List.Chain' S l := by
  intro l
  induction l with
  | nil => intro _ _; simp
  | cons a cs ih =>
    intro hch himp
    match cs with
    | [] => simp
    | d :: cs' =>
      have h1 := List.chain'_cons.mp hch
      refine List.chain'_cons.mpr ⟨?_, ?_⟩
      · exact himp a (by simp) d (by simp) h1.1
      · exact ih h1.2 (fun x hx y hy => himp x (List.mem_cons_of_mem _ hx) y
          (List.mem_cons_of_mem _ hy))

/-- Decomposition is the identity on a list of NFKD-fixed characters. -/
theorem flatMap_nfkd_fixed {l : List Char} (h : ∀ c ∈ l, nfkd c = [c]) :
    l.flatMap nfkd = l := by
  induction l with
  | nil => rfl
  | cons a cs ih =>
    rw [List.flatMap_cons, h a (by simp), ih (fun c hc => h c (List.mem_cons_of_mem _ hc))]
    rfl

/-- `dropWhile` only looks at the predicate's values on the list. -/
theorem dropWhile_congr_mem {p q : Char → Bool} :
    ∀ {l : List Char}, (∀ c ∈ l, p c = q c) → l.dropWhile p = l.dropWhile q := by
  intro l
  induction l with
  | nil => intro _; rfl
  | cons a cs ih =>
    intro h
    have ha := h a (by simp)
    by_cases hpa : p a = true
    · rw [List.dropWhile_cons_of_pos hpa, List.dropWhile_cons_of_pos (ha ▸ hpa)]
      exact ih (fun c hc => h c (List.mem_cons_of_mem _ hc))
    · have hpa' : ¬ (q a = true) := fun hq => hpa (ha ▸ hq)
      rw [List.dropWhile_cons_of_neg hpa, List.dropWhile_cons_of_neg hpa']

/-- `__clean_string` as the explicit composition of its stages. -/
theorem cleanString_stages (s : List Char) :
    cleanString s =
      List.map (fun c => if c = ' ' then '_' else c)
        (collapseUnderscores (collapseSpaces
          (List.filter (fun c => c != ':')
            (List.map (fun c => if c = '-' then ' ' else c)
              (List.filter (fun c => c != ')')
                (List.filter (fun c => c != '(')
                  (eliminarAcentos
                    (List.map pyToLower
                      (pyStrip
                        (List.map (fun c => if c = '_' then ' ' else c)
                          (List.map (fun c => if c = '\n' then ' ' else c) s))))))))))) := rfl

/-- Every output of the normalizer consists of underscores and good
characters, with no two underscores adjacent. -/
theorem cleanOutput_cleanString (s : List Char) : CleanOutput (cleanString s) := by
  rw [cleanString_stages]
  set t2 := List.map (fun c => if c = '_' then ' ' else c)
      (List.map (fun c => if c = '\n' then ' ' else c) s) with ht2
  set t3 := pyStrip t2 with ht3
  set t4 := List.map pyToLower t3 with ht4
  set t5 := eliminarAcentos t4 with ht5
  set t7 := List.filter (fun c => c != ':')
      (List.map (fun c => if c = '-' then ' ' else c)
        (List.filter (fun c => c != ')')
          (List.filter (fun c => c != '(') t5))) with ht7
  set t8 := collapseSpaces t7 with ht8
  have h2 : ('_' : Char) ∉ t2 := by
    intro hmem
    obtain ⟨a, _, ha⟩ := List.mem_map.mp hmem
    by_cases h : a = '_' <;> simp [h] at ha
  have h3 : ('_' : Char) ∉ t3 := fun hm => h2 ((pyStrip_sublist t2).subset hm)
  have h5 : ∀ d ∈ t5, pyToLower d = d ∧ nfkd d = [d] ∧ isCombining d = false ∧ d ≠ '_' := by
    intro d hd
    rw [ht5, eliminarAcentos] at hd
    have hfd := List.mem_filter.mp hd
    have hcomb : isCombining d = false := by
      have := hfd.2
      simp only [Bool.not_eq_true'] at this
      exact this
    obtain ⟨c, hc4, hdc⟩ := List.mem_flatMap.mp hfd.1
    obtain ⟨b, hb3, hbc⟩ := List.mem_map.mp hc4
    have hstable : pyToLower d = d ∧ nfkd d = [d] := by
      apply stable_after_accents b d _ hcomb
      rw [hbc]
      exact hdc
    have hb_ne : b ≠ '_' := fun he => h3 (he ▸ hb3)
    have hc_ne : c ≠ '_' := hbc ▸ pyToLower_ne_underscore hb_ne
    exact ⟨hstable.1, hstable.2, hcomb, nfkd_ne_underscore hc_ne hdc⟩
  have h7 : ∀ d ∈ t7, d = ' ' ∨ (pyToLower d = d ∧ nfkd d = [d] ∧ isCombining d = false
      ∧ d ≠ '_' ∧ d ≠ '(' ∧ d ≠ ')' ∧ d ≠ '-' ∧ d ≠ ':') := by
    intro d hd
    rw [ht7] at hd
    have hf := List.mem_filter.mp hd
    have hd_ne_colon : d ≠ ':' := by
      have := hf.2; simpa using this
    obtain ⟨e, he, hde⟩ := List.mem_map.mp hf.1
    have hfe := List.mem_filter.mp he
    have hfe2 := List.mem_filter.mp hfe.1
    have he_props := h5 e hfe2.1
    have he_np : e ≠ '(' := by have := hfe2.2; simpa using this
    have he_nq : e ≠ ')' := by have := hfe.2; simpa using this
    by_cases hdash : e = '-'
    · left; rw [← hde, hdash]; simp
    · right
      have hde' : d = e := by rw [← hde]; simp [hdash]
      subst hde'
      exact ⟨he_props.1, he_props.2.1, he_props.2.2.1, he_props.2.2.2, he_np, he_nq,
        hdash, hd_ne_colon⟩
  have h8 : ∀ c ∈ t8, c = ' ' ∨ isGoodChar c = true := by
    intro c hc
    rcases mem_collapseSpaces hc with h | ⟨hm, hs⟩
    · left; exact h
    · right
      rcases h7 c hm with h' | h'
      · exfalso; rw [h'] at hs; simp [isPySpace, pyWhitespace] at hs
      · simp only [isGoodChar, Bool.and_eq_true, bne_iff_ne, beq_iff_eq,
          Bool.not_eq_true']
        exact ⟨⟨⟨⟨⟨⟨⟨⟨hs, h'.2.2.2.1⟩, h'.2.2.2.2.1⟩, h'.2.2.2.2.2.1⟩,
          h'.2.2.2.2.2.2.1⟩, h'.2.2.2.2.2.2.2⟩, h'.1⟩, h'.2.1⟩, h'.2.2.1⟩
  have h8u : ('_' : Char) ∉ t8 := by
    intro hm
    rcases h8 _ hm with h | h
    · exact absurd h (by decide)
    · simp [isGoodChar] at h
  have h9 : collapseUnderscores t8 = t8 := collapseUnderscores_eq_self h8u
  rw [h9]
  constructor
  · intro c hc
    obtain ⟨e, he, hce⟩ := List.mem_map.mp hc
    rcases h8 e he with h | h
    · left; rw [← hce, h]; decide
    · right
      have he_ns : e ≠ ' ' := by
        intro hee
        rw [hee] at h
        simp [isGoodChar, isPySpace, pyWhitespace] at h
      rw [← hce]
      simpa [he_ns] using h
  · have hch := chain'_collapseSpaces t7
    rw [← ht8] at hch
    rw [List.chain'_map]
    apply chain'_imp_mem hch
    intro a ha b hb hab
    intro hcon
    apply hab
    constructor
    · have : a = ' ' := by
        by_cases h : a = ' '
        · exact h
        · exfalso
          have := hcon.1
          rw [if_neg h] at this
          exact h8u (this ▸ ha)
      rw [this]; decide
    · have : b = ' ' := by
        by_cases h : b = ' '
        · exact h
        · exfalso
          have := hcon.2
          rw [if_neg h] at this
          exact h8u (this ▸ hb)
      rw [this]; decide

/-- Unpacking of the good-character conjunction. -/
theorem goodChar_props {c : Char} (h : isGoodChar c = true) :
    isPySpace c = false ∧ c ≠ '_' ∧ c ≠ '(' ∧ c ≠ ')' ∧ c ≠ '-' ∧ c ≠ ':'
      ∧ pyToLower c = c ∧ nfkd c = [c] ∧ isCombining c = false := by
  simp only [isGoodChar, Bool.and_eq_true, bne_iff_ne, beq_iff_eq,
    Bool.not_eq_true'] at h
  exact ⟨h.1.1.1.1.1.1.1.1, h.1.1.1.1.1.1.1.2, h.1.1.1.1.1.1.2, h.1.1.1.1.1.2,
    h.1.1.1.1.2, h.1.1.1.2, h.1.1.2, h.1.2, h.2⟩

/-- A good character is not the space. -/
theorem goodChar_ne_space {c : Char} (h : isGoodChar c = true) : c ≠ ' ' := by
  intro he
  have := (goodChar_props h).1
  rw [he] at this
  simp [isPySpace, pyWhitespace] at this

/-- A good character is not the newline. -/
theorem goodChar_ne_newline {c : Char} (h : isGoodChar c = true) : c ≠ '\n' := by
  intro he
  have := (goodChar_props h).1
  rw [he] at this
  simp [isPySpace, pyWhitespace] at this

/-- The underscore-trimmed list sits inside the original list. -/
theorem trimUnd_isInfix (x : List Char) : List.IsInfix (trimUnd x) x := by
  obtain ⟨u, hu⟩ := List.dropWhile_suffix (l := x) (fun c => c == '_')
  obtain ⟨v, hv⟩ :=
    List.dropWhile_suffix (l := (x.dropWhile (fun c => c == '_')).reverse)
      (fun c => c == '_')
  refine ⟨u, v.reverse, ?_⟩
  have hrev := congrArg List.reverse hv
  rw [List.reverse_append, List.reverse_reverse] at hrev
  show u ++ trimUnd x ++ v.reverse = x
  rw [trimUnd, List.append_assoc, hrev, hu]

/-- The head of a `dropWhile` fails the predicate. -/
theorem head_dropWhile_false {p : Char → Bool} :
    ∀ {l : List Char} {h : Char}, (l.dropWhile p).head? = some h → p h = false := by
  intro l
  induction l with
  | nil => intro h hh; simp [List.dropWhile] at hh
  | cons a cs ih =>
    intro h hh
    by_cases hpa : p a = true
    · rw [List.dropWhile_cons_of_pos hpa] at hh
      exact ih hh
    · rw [List.dropWhile_cons_of_neg hpa] at hh
      simp only [List.head?_cons, Option.some_inj] at hh
      subst hh
      exact Bool.not_eq_true _ ▸ hpa

/-- `dropWhile` fixes a list whose head fails the predicate. -/
theorem dropWhile_eq_self_of_head {p : Char → Bool} {l : List Char}
    (h : ∀ a, l.head? = some a → p a = false) : l.dropWhile p = l := by
  match l with
  | [] => rfl
  | a :: cs =>
    have := h a rfl
    rw [List.dropWhile_cons_of_neg (by rw [this]; exact Bool.false_ne_true)]

/-- Trimming boundary underscores is idempotent. -/
theorem trimUnd_idem (x : List Char) : trimUnd (trimUnd x) = trimUnd x := by
  set p := fun c : Char => c == '_' with hp
  set x1 := x.dropWhile p with hx1
  set y := (x1.reverse.dropWhile p).reverse with hy
  obtain ⟨v, hv⟩ := List.dropWhile_suffix (l := x1.reverse) p
  have hyt : y ++ v.reverse = x1 := by
    have hrev := congrArg List.reverse hv
    rw [List.reverse_append, List.reverse_reverse] at hrev
    rw [hy]
    exact hrev
  show trimUnd y = y
  by_cases hynil : y = []
  · rw [hynil]; rfl
  · obtain ⟨a, ys, hym⟩ := List.exists_cons_of_ne_nil hynil
    have hhead : y.head? = some a := by rw [hym]; rfl
    have hheadx1 : x1.head? = some a := by
      calc x1.head? = (y ++ v.reverse).head? := by rw [hyt]
        _ = y.head? := List.head?_append_of_ne_nil y hynil
        _ = some a := hhead
    have hpa : p a = false := by
      rw [hx1] at hheadx1
      exact head_dropWhile_false hheadx1
    have hdy : y.dropWhile p = y := by
      apply dropWhile_eq_self_of_head
      intro b hb
      rw [hhead] at hb
      cases hb
      exact hpa
    have hrev : y.reverse.dropWhile p = y.reverse := by
      apply dropWhile_eq_self_of_head
      intro b hb
      have hyr : y.reverse = x1.reverse.dropWhile p := by rw [hy, List.reverse_reverse]
      rw [hyr] at hb
      exact head_dropWhile_false hb
    show ((y.dropWhile p).reverse.dropWhile p).reverse = y
    rw [hdy, hrev, List.reverse_reverse]

/-- Trimming boundary underscores preserves the output shape. -/
theorem cleanOutput_trimUnd {x : List Char} (h : CleanOutput x) :
    CleanOutput (trimUnd x) := by
  obtain ⟨hmem, hch⟩ := h
  constructor
  · intro c hc
    exact hmem c ((trimUnd_isInfix x).sublist.subset hc)
  · exact List.Chain'.infix hch (trimUnd_isInfix x)

/-- On a string already shaped like a normalizer output, the normalizer only
trims boundary underscores. -/
theorem cleanString_of_cleanOutput {x : List Char} (h : CleanOutput x) :
    cleanString x = trimUnd x := by
  obtain ⟨hmem, hch⟩ := h
  rw [cleanString_stages]
  have hs1 : List.map (fun c => if c = '\n' then ' ' else c) x = x := by
    conv_rhs => rw [← List.map_id x]
    apply List.map_congr_left
    intro a ha
    rcases hmem a ha with h | h
    · rw [h]; rfl
    · simp [goodChar_ne_newline h]
  rw [hs1]
  have hmap_drop : ∀ (l : List Char), (∀ c ∈ l, c = '_' ∨ isGoodChar c = true) →
      (List.map (fun c => if c = '_' then ' ' else c) l).dropWhile isPySpace
        = List.map (fun c => if c = '_' then ' ' else c)
            (l.dropWhile (fun c => c == '_')) := by
    intro l hl
    rw [List.dropWhile_map]
    congr 1
    apply dropWhile_congr_mem
    intro c hc
    rcases hl c hc with h | h
    · rw [h]; rfl
    · have hp := goodChar_props h
      simp only [Function.comp_apply, if_neg hp.2.1, hp.1]
      have : (c == '_') = false := by
        rw [beq_eq_false_iff_ne]
        exact hp.2.1
      rw [this]
  have hsubx1 : ∀ c ∈ x.dropWhile (fun c => c == '_'), c = '_' ∨ isGoodChar c = true :=
    fun c hc => hmem c ((List.dropWhile_sublist _).subset hc)
  have hstrip : pyStrip (List.map (fun c => if c = '_' then ' ' else c) x)
      = List.map (fun c => if c = '_' then ' ' else c) (trimUnd x) := by
    rw [pyStrip, lstrip, rstrip]
    rw [hmap_drop x hmem]
    rw [← List.map_reverse]
    rw [hmap_drop _ (fun c hc => hsubx1 c (List.mem_reverse.mp hc))]
    rw [← List.map_reverse]
    rfl
  rw [hstrip]
  have hmemy : ∀ c ∈ trimUnd x, c = '_' ∨ isGoodChar c = true :=
    fun c hc => hmem c ((trimUnd_isInfix x).sublist.subset hc)
  have hmemz : ∀ c ∈ List.map (fun c => if c = '_' then ' ' else c) (trimUnd x),
      c = ' ' ∨ (isGoodChar c = true ∧ c ≠ ' ' ∧ c ≠ '_') := by
    intro c hc
    obtain ⟨a, ha, hac⟩ := List.mem_map.mp hc
    rcases hmemy a ha with h | h
    · left; rw [← hac, h]; decide
    · right
      have hp := goodChar_props h
      have : c = a := by rw [← hac, if_neg hp.2.1]
      subst this
      exact ⟨h, goodChar_ne_space h, hp.2.1⟩
  set z := List.map (fun c => if c = '_' then ' ' else c) (trimUnd x) with hz
  have h4 : List.map pyToLower z = z := by
    conv_rhs => rw [← List.map_id z]
    apply List.map_congr_left
    intro a ha
    rcases hmemz a ha with h | h
    · rw [h]; decide
    · exact (goodChar_props h.1).2.2.2.2.2.2.1
  rw [h4]
  have h5 : eliminarAcentos z = z := by
    rw [eliminarAcentos]
    rw [flatMap_nfkd_fixed]
    · apply List.filter_eq_self.mpr
      intro a ha
      rcases hmemz a ha with h | h
      · rw [h]; decide
      · have := (goodChar_props h.1).2.2.2.2.2.2.2.2
        simp [this]
    · intro c hc
      rcases hmemz c hc with h | h
      · rw [h]; decide
      · exact (goodChar_props h.1).2.2.2.2.2.2.2.1
  rw [h5]
  have h6a : z.filter (fun c => c != '(') = z := by
    apply List.filter_eq_self.mpr
    intro a ha
    rcases hmemz a ha with h | h
    · rw [h]; decide
    · simp [(goodChar_props h.1).2.2.1]
  rw [h6a]
  have h6b : z.filter (fun c => c != ')') = z := by
    apply List.filter_eq_self.mpr
    intro a ha
    rcases hmemz a ha with h | h
    · rw [h]; decide
    · simp [(goodChar_props h.1).2.2.2.1]
  rw [h6b]
  have h6c : z.map (fun c => if c = '-' then ' ' else c) = z := by
    conv_rhs => rw [← List.map_id z]
    apply List.map_congr_left
    intro a ha
    rcases hmemz a ha with h | h
    · rw [h]; decide
    · simp [(goodChar_props h.1).2.2.2.2.1]
  rw [h6c]
  have h7 : z.filter (fun c => c != ':') = z := by
    apply List.filter_eq_self.mpr
    intro a ha
    rcases hmemz a ha with h | h
    · rw [h]; decide
    · simp [(goodChar_props h.1).2.2.2.2.2.1]
  rw [h7]
  have h8 : collapseSpaces z = z := by
    apply collapseSpaces_eq_self
    · intro c hc hsp
      rcases hmemz c hc with h | h
      · exact h
      · exact absurd hsp (by rw [(goodChar_props h.1).1]; exact Bool.false_ne_true)
    · rw [hz, List.chain'_map]
      have hchy := List.Chain'.infix hch (trimUnd_isInfix x)
      apply chain'_imp_mem hchy
      intro a ha b hb hab hcon
      apply hab
      have hau : a = '_' := by
        by_cases h : a = '_'
        · exact h
        · exfalso
          have := hcon.1
          rw [if_neg h] at this
          rcases hmemy a ha with h' | h'
          · exact h h'
          · rw [(goodChar_props h').1] at this
            exact Bool.false_ne_true this
      have hbu : b = '_' := by
        by_cases h : b = '_'
        · exact h
        · exfalso
          have := hcon.2
          rw [if_neg h] at this
          rcases hmemy b hb with h' | h'
          · exact h h'
          · rw [(goodChar_props h').1] at this
            exact Bool.false_ne_true this
      exact ⟨hau, hbu⟩
  rw [h8]
  have h9 : collapseUnderscores z = z := by
    apply collapseUnderscores_eq_self
    intro hm
    rcases hmemz _ hm with h | h
    · exact absurd h (by decide)
    · exact h.2.2 rfl
  rw [h9]
  rw [hz, List.map_map]
  conv_rhs => rw [← List.map_id (trimUnd x)]
  apply List.map_congr_left
  intro a ha
  rcases hmemy a ha with h | h
  · rw [h]; decide
  · have hp := goodChar_props h
    simp only [Function.comp_apply, if_neg hp.2.1, id_eq]
    rw [if_neg (goodChar_ne_space h)]

/-- C2 counterexample: the normalizer is not idempotent.  A hyphen adjacent
to the string boundary becomes a space after the strip already ran, so one
pass leaves a boundary underscore that a second pass then strips:
`clean "-a" = "_a"` but `clean "_a" = "a"`. -/
theorem c2_counterexample :
    cleanString "-a".toList = "_a".toList
    ∧ cleanString (cleanString "-a".toList) = "a".toList
    ∧ cleanString (cleanString "-a".toList) ≠ cleanString "-a".toList :=
  ⟨by decide, by decide, by decide⟩

/-- C2 as amended: the normalizer reaches a fixed point after two
applications — for every string `s`, `clean (clean (clean s)) =
clean (clean s)` — while single-application idempotence fails exactly on the
boundary underscores exhibited by the counterexample. -/
theorem c2_clean_clean_idempotent (s : List Char) :
    cleanString (cleanString (cleanString s)) = cleanString (cleanString s) := by
  have hA : CleanOutput (cleanString s) := cleanOutput_cleanString s
  have hB1 : cleanString (cleanString s) = trimUnd (cleanString s) :=
    cleanString_of_cleanOutput hA
  have hA2 : CleanOutput (trimUnd (cleanString s)) := cleanOutput_trimUnd hA
  have hB2 : cleanString (trimUnd (cleanString s)) = trimUnd (trimUnd (cleanString s)) :=
    cleanString_of_cleanOutput hA2
  rw [hB1, hB2, trimUnd_idem]

end MyApis
